import Mathlib

/-!
Verification of the file-service storage layer (Go sources under `api/`
and `storage/`) against its natural-language specification.

The Go code is shallowly embedded: each Go function that a claim touches
is translated into a computable Lean definition over explicit inputs.
Provider SDK calls (MinIO, Aliyun OSS, Huawei OBS, Azure Blob) are
modelled by their documented request/response semantics, passed in as
explicit data (key stores, page lists, probe oracles); the adapter code
itself — the part that lives in this repository — is translated
line by line.  Go strings are modelled as Lean `String`; Go byte
indexing coincides with character indexing on the ASCII keys exercised
here.  A Go `nil` map is modelled as `Option.none`, an allocated map as
`Option.some`.
-/

namespace FileService

/-! ## Go string helpers (strings.HasPrefix / HasSuffix / Split / Join) -/

/-- Go `strings.HasPrefix s pre`. -/
def strStartsWith (s pre : String) : Bool :=
  pre.data.isPrefixOf s.data

/-- Go `strings.HasSuffix s suf`. -/
def strEndsWith (s suf : String) : Bool :=
  suf.data.isSuffixOf s.data

/-- Character-level split on `'/'`, matching Go `strings.Split s "/"`:
empty fields are kept, and the empty string splits to one empty field. -/
def splitSlashChars : List Char → List (List Char)
  | [] => [[]]
  | c :: cs =>
    match splitSlashChars cs with
    | [] => [[]]
    | h :: t => if c = '/' then [] :: h :: t else (c :: h) :: t

/-- Go `strings.Split s "/"`. -/
def goSplitSlash (s : String) : List String :=
  (splitSlashChars s.data).map (fun l => ⟨l⟩)

/-- Character-level interleaving with `'/'`, matching Go
`strings.Join parts "/"`. -/
def joinSlashChars : List (List Char) → List Char
  | [] => []
  | [x] => x
  | x :: y :: rest => x ++ '/' :: joinSlashChars (y :: rest)

/-- Go `strings.Join parts "/"`. -/
def goJoinSlash (parts : List String) : String :=
  ⟨joinSlashChars (parts.map String.data)⟩

/-! ## Object Record model (Go struct `storage.FileObject`) -/

/-- Go struct `storage.FileObject`.  `metadata = none` models a Go `nil`
map (the `Metadata` field omitted from a composite literal);
`metadata = some kvs` models an allocated map with entries `kvs`. -/
structure FileObject where
  name : String
  size : Int
  contentType : String
  lastModified : String
  metadata : Option (List (String × String))
  isDir : Bool
deriving Repr, DecidableEq

/-! ## C10: route registration (`Server.registerRoutes`, api/server.go) -/

/-- HTTP methods used by `registerRoutes`. -/
inductive HttpMethod
  | get
  | post
  | delete
  | head
deriving Repr, DecidableEq

/-- Handler identities dispatched by `Server`; `deleteObjectsH` tags the
bulk prefix-delete handler `Server.deleteObjects`, `deleteFileH` the
single-object handler `Server.deleteFile`. -/
inductive Handler
  | healthCheckH
  | uploadFileH
  | downloadFileH
  | deleteFileH
  | deleteObjectsH
  | listObjectsH
  | getObjectInfoH
deriving Repr, DecidableEq

/-- One registered route: method, path pattern, handler. -/
structure Route where
  method : HttpMethod
  path : String
  handler : Handler
deriving Repr, DecidableEq

/-- Go `Server.registerRoutes` (api/server.go): the exact route table the
server installs (the `/health` route plus the authorized group). -/
def registerRoutes : List Route :=
  [ ⟨HttpMethod.get, "/health", Handler.healthCheckH⟩
  , ⟨HttpMethod.post, "/upload/:bucket/*object", Handler.uploadFileH⟩
  , ⟨HttpMethod.get, "/download/:bucket/*object", Handler.downloadFileH⟩
  , ⟨HttpMethod.delete, "/delete/:bucket/*object", Handler.deleteFileH⟩
  , ⟨HttpMethod.get, "/list/:bucket", Handler.listObjectsH⟩
  , ⟨HttpMethod.get, "/list/", Handler.listObjectsH⟩
  , ⟨HttpMethod.head, "/info/:bucket/*object", Handler.getObjectInfoH⟩ ]

/-! ## C8: default-bucket substitution in the HTTP handlers -/

/-- Bucket selection in `Server.uploadFile` (api/server.go): the handler
reads `c.Param("bucket")` and uses it directly — there is no
empty-check against the configured default, despite the comment
`Use default bucket if not specified` above it. -/
def uploadFileBucket (param _defaultBucket : String) : String :=
  param

/-- Bucket selection in `Server.downloadFile`, `Server.deleteFile`,
`Server.listObjects`, `Server.getObjectInfo` and `Server.deleteObjects`
(api/server.go): the empty parameter is replaced by
`s.config.Storage.Bucket`. -/
def handlerBucket (param defaultBucket : String) : String :=
  if param = "" then defaultBucket else param

/-! ## C7: bulk prefix delete (`Server.deleteObjects`, api/server.go) -/

/-- Outcome of a handler: either an HTTP 200 payload or an HTTP 500
error message (the handler returns after `c.JSON(500, ...)`). -/
inductive HandlerOut (α : Type)
  | ok (payload : α)
  | httpError (msg : String)
deriving Repr, DecidableEq

/-- Payload of `Server.deleteObjects`: the names deleted successfully
and one error string per failed deletion. -/
structure DeleteReport where
  deleted : List String
  errors : List String
deriving Repr, DecidableEq

/-- Go loop body of `Server.deleteObjects`: each listed object is deleted
individually; `delOk name = true` models `s.storage.Delete` succeeding on
`name`, `false` a per-object failure. -/
def deleteLoop (delOk : String → Bool) : List FileObject → DeleteReport
  | [] => ⟨[], []⟩
  | obj :: rest =>
    let r := deleteLoop delOk rest
    if delOk obj.name then
      ⟨obj.name :: r.deleted, r.errors⟩
    else
      ⟨r.deleted, ("Failed to delete " ++ obj.name) :: r.errors⟩

/-- Go `Server.deleteObjects` (api/server.go): list under the prefix,
then delete each object individually; a `List` failure short-circuits
with HTTP 500, otherwise the partial-success report is returned with
HTTP 200.  `listRes` is the result of `s.storage.List`. -/
def deleteObjects (listRes : Except String (List FileObject))
    (delOk : String → Bool) : HandlerOut DeleteReport :=
  match listRes with
  | .error e => .httpError ("Failed to list objects: " ++ e)
  | .ok objects => .ok (deleteLoop delOk objects)

/-! ## C4 / C5: bulk archive builder (directory branch of
`Server.downloadFile`, api/server.go) -/

/-- Source-stream lifecycle events of the archive loop:
`opened n` models `s.storage.Download` returning a reader for object
`n`, `closed n` models `reader.Close()`. -/
inductive StreamEv
  | opened (name : String)
  | closed (name : String)
deriving Repr, DecidableEq

/-- Observable outcome of the archive loop: the entry names created in
the ZIP (`zipWriter.Create` succeeded), the subset whose byte copy also
succeeded, and the stream open/close trace. -/
structure ArchiveTrace where
  entries : List String
  completed : List String
  events : List StreamEv
deriving Repr, DecidableEq

/-- Prefix normalization at the top of the directory branch of
`Server.downloadFile`: a non-empty prefix is forced to end with `/`. -/
def normalizeArchivePfx (object : String) : String :=
  if object ≠ "" ∧ strEndsWith object "/" = false then object ++ "/"
  else object

/-- Go `for _, obj := range objects` loop of the directory branch of
`Server.downloadFile`.  `dlOk n` models `s.storage.Download` succeeding
on object `n`; `crOk n` models `zipWriter.Create` succeeding for the
entry of object `n`; `cpOk n` models `io.Copy` succeeding.  Directory
records (flagged or with a `/`-terminated name) are skipped; a download
failure skips the object; a create failure closes the reader and skips;
the copy always closes the reader and a copy failure skips. -/
def archiveLoop (pfx : String) (dlOk crOk cpOk : String → Bool) :
    List FileObject → ArchiveTrace
  | [] => ⟨[], [], []⟩
  | obj :: rest =>
    let r := archiveLoop pfx dlOk crOk cpOk rest
    if obj.isDir || strEndsWith obj.name "/" then r
    else if dlOk obj.name then
      if crOk obj.name then
        if cpOk obj.name then
          ⟨obj.name.drop pfx.length :: r.entries,
            obj.name.drop pfx.length :: r.completed,
            StreamEv.opened obj.name :: StreamEv.closed obj.name :: r.events⟩
        else
          ⟨obj.name.drop pfx.length :: r.entries, r.completed,
            StreamEv.opened obj.name :: StreamEv.closed obj.name :: r.events⟩
      else
        ⟨r.entries, r.completed,
          StreamEv.opened obj.name :: StreamEv.closed obj.name :: r.events⟩
    else r

/-- Directory branch of Go `Server.downloadFile` (api/server.go):
normalize the prefix, list, and run the archive loop; only a `List`
failure aborts with HTTP 500. -/
def downloadDirArchive (object : String)
    (listRes : Except String (List FileObject))
    (dlOk crOk cpOk : String → Bool) : HandlerOut ArchiveTrace :=
  match listRes with
  | .error e => .httpError ("Failed to list objects: " ++ e)
  | .ok objects =>
    .ok (archiveLoop (normalizeArchivePfx object) dlOk crOk cpOk objects)

/-- Predicate for records the archive loop keeps: not directory-flagged
and not named with a trailing slash. -/
def keepInArchive (o : FileObject) : Bool :=
  !(o.isDir || strEndsWith o.name "/")

/-! ## C1: List adapters -/

/-- Provider-side object listing entry, as the MinIO / OSS / OBS SDKs
report it (key, size, content type, RFC 3339 modification time, user
metadata, OBS storage class). -/
structure ProviderObj where
  key : String
  size : Int
  contentType : String
  lastModified : String
  userMetadata : List (String × String)
  storageClass : String
deriving Repr, DecidableEq

/-- Provider-side set of objects matching a listing request: exactly the
stored keys that start with the requested key prefix. -/
def listMatching (store : List ProviderObj) (pfx : String) : List ProviderObj :=
  store.filter (fun o => strStartsWith o.key pfx)

/-- Model of the Aliyun OSS SDK call
`bucket.ListObjects(oss.Prefix(pfx), oss.MaxKeys(1000))`: one page
holding at most 1000 matching keys (the provider caps each response at
`MaxKeys`; further keys require follow-up marker requests, which
`OSSStorage.List` never issues). -/
def ossListObjectsCall (store : List ProviderObj) (pfx : String) :
    List ProviderObj :=
  (listMatching store pfx).take 1000

/-- Conversion of one OSS object inside `OSSStorage.List`
(storage/oss.go): an allocated empty metadata map, directory flag left
at its zero value. -/
def ossConvert (o : ProviderObj) : FileObject :=
  ⟨o.key, o.size, o.contentType, o.lastModified, some [], false⟩

/-- Go `OSSStorage.List` (storage/oss.go): a single `ListObjects` call
with `MaxKeys(1000)` and no pagination loop. -/
def ossList (store : List ProviderObj) (pfx : String) : List FileObject :=
  (ossListObjectsCall store pfx).map ossConvert

/-- Model of the Huawei OBS SDK call `client.ListObjects(input)` with no
MaxKeys set: the provider caps one response at its default page size of
1000 keys; `OBStorage.List` never checks `IsTruncated`. -/
def obsListObjectsCall (store : List ProviderObj) (pfx : String) :
    List ProviderObj :=
  (listMatching store pfx).take 1000

/-- Conversion of one OBS object inside `OBStorage.List` (OBS adapter
source): content type taken from the storage class with an octet-stream
default. -/
def obsConvert (o : ProviderObj) : FileObject :=
  ⟨o.key, o.size,
    (if o.storageClass = "" then "application/octet-stream"
     else o.storageClass),
    o.lastModified, some [], false⟩

/-- Go `OBStorage.List` (storage, OBS adapter): a single `ListObjects`
call with no pagination loop. -/
def obsList (store : List ProviderObj) (pfx : String) : List FileObject :=
  (obsListObjectsCall store pfx).map obsConvert

/-- Azure list-blobs page entry, with the nilable properties the SDK
exposes as pointers. -/
structure AzBlobItem where
  name : String
  contentType : Option String
  lastModified : Option String
  contentLength : Option Int
deriving Repr, DecidableEq

/-- Provider-side set of Azure blobs matching a listing request:
exactly the stored blobs whose name starts with the requested prefix. -/
def azListMatching (store : List AzBlobItem) (pfx : String) : List AzBlobItem :=
  store.filter (fun b => strStartsWith b.name pfx)

/-- Conversion of one Azure blob item inside `AzureStorage.List`
(storage/azure.go); `now` is the formatted `time.Now()` fallback. -/
def azureConvert (now : String) (b : AzBlobItem) : FileObject :=
  ⟨b.name,
    b.contentLength.getD 0,
    b.contentType.getD "application/octet-stream",
    b.lastModified.getD now,
    some [], false⟩

/-- Go `AzureStorage.List` (storage/azure.go): the `for pager.More()`
loop, which appends the conversion of every item of every page.
`pages` is the sequence of pages the SDK pager yields. -/
def azureList (now : String) : List (List AzBlobItem) → List FileObject
  | [] => []
  | page :: rest => page.map (azureConvert now) ++ azureList now rest

/-- Conversion of one MinIO object inside `MinIOStorage.List`
(MinIO adapter source): `convertMetadata` always allocates a map. -/
def minioConvert (o : ProviderObj) : FileObject :=
  ⟨o.key, o.size, o.contentType, o.lastModified, some o.userMetadata, false⟩

/-- Go `MinIOStorage.List` (MinIO adapter source): drains the
`ListObjects` channel, aborting on the first item that carries an
error. -/
def minioList : List (Except String ProviderObj) → Except String (List FileObject)
  | [] => .ok []
  | .error e :: _ => .error e
  | .ok o :: rest =>
    match minioList rest with
    | .error e => .error e
    | .ok l => .ok (minioConvert o :: l)

/-- Concrete OSS bucket content with 1001 objects, every key matching
the empty prefix. -/
def ossBigStore : List ProviderObj :=
  (List.range 1001).map fun i => ⟨Nat.repr i, 0, "", "", [], ""⟩

/-! ## C2: error values crossing the Storage interface -/

/-- Error taxonomy.  Modelled from the spec: the spec's §4.1 taxonomy
`NotFound` / `InvalidArgument` / `Backend` that adapters are claimed to
map provider errors onto.  No such type exists anywhere in the source;
the Storage interface returns plain Go `error`. -/
inductive TaxKind
  | notFound
  | invalidArgument
  | backend
deriving Repr, DecidableEq

/-- Error values a Storage Contract call can surface to its caller:
either a raw provider SDK error (an `*azcore.ResponseError`, a
`minio.ErrorResponse`, an `oss.ServiceError`, an `obs.ObsError`) passed
through unchanged, or a value of the spec's taxonomy. -/
inductive GoError
  | azureResp (status : Nat) (code : String)
  | minioResp (code : String)
  | ossServiceErr (status : Nat) (code : String)
  | obsErr (code : String)
  | taxonomy (kind : TaxKind)
deriving Repr, DecidableEq

/-- Test whether an error value belongs to the spec's taxonomy rather
than being a raw provider error. -/
def GoError.isTaxonomy : GoError → Bool
  | .taxonomy _ => true
  | _ => false

/-- Go `AzureStorage.Download` (storage/azure.go): the error from
`client.DownloadStream` is returned to the caller unchanged.  SDK model:
an absent blob yields a ResponseError with HTTP status 404 and service
code `BlobNotFound`. -/
def azureDownload (keys : List String) (key : String) : Except GoError Unit :=
  if keys.contains key then .ok ()
  else .error (.azureResp 404 "BlobNotFound")

/-- Go `MinIOStorage.GetObjectInfo` (MinIO adapter source): the error
from `client.StatObject` is returned unchanged; on success the record is
built with `convertMetadata` (always an allocated map).  SDK model: an
absent key yields a `minio.ErrorResponse` with code `NoSuchKey`. -/
def minioGetObjectInfo (store : List ProviderObj) (key : String) :
    Except GoError FileObject :=
  match store.find? (fun o => o.key = key) with
  | some o => .ok ⟨o.key, o.size, o.contentType, o.lastModified,
      some o.userMetadata, false⟩
  | none => .error (.minioResp "NoSuchKey")

/-! ## C9: records produced by GetObjectInfo and ListDirectories -/

/-- Go `AzureStorage.GetObjectInfo` success path (storage/azure.go):
nilable properties defaulted, metadata always an allocated empty map;
`now` is the formatted `time.Now()` fallback. -/
def azureGetObjectInfo (now blobName : String) (props : AzBlobItem) :
    FileObject :=
  ⟨blobName,
    props.contentLength.getD 0,
    props.contentType.getD "application/octet-stream",
    props.lastModified.getD now,
    some [], false⟩

/-- Lookup in an HTTP header map, matching Go `http.Header.Get` over the
first value of a key (empty string when absent). -/
def headerGet (props : List (String × String)) (k : String) : String :=
  ((props.find? (fun kv => kv.1 = k)).map (fun kv => kv.2)).getD ""

/-- Go `OSSStorage.GetObjectInfo` success path (storage/oss.go): size
parsed from the Content-Length header with a parse failure ignored, and
the whole header map copied into metadata (always allocated). -/
def ossGetObjectInfo (objectName : String)
    (props : List (String × String)) : FileObject :=
  ⟨objectName,
    (headerGet props "Content-Length").toInt?.getD 0,
    headerGet props "Content-Type",
    headerGet props "Last-Modified",
    some props, false⟩

/-- Go `OBStorage.GetObjectInfo` success path (OBS adapter source):
content type defaulted to octet-stream, metadata always an allocated
empty map. -/
def obsGetObjectInfo (objectName contentType lastModified : String)
    (contentLength : Int) : FileObject :=
  ⟨objectName,
    contentLength,
    (if contentType = "" then "application/octet-stream" else contentType),
    lastModified,
    some [], false⟩

/-- Directory record built by `OSSStorage.ListDirectories`
(storage/oss.go): only Name / Size / ContentType / IsDir are set in the
composite literal, so LastModified is the zero string and Metadata is a
Go nil map. -/
def ossDirRecord (p : String) : FileObject :=
  ⟨p, 0, "application/directory", "", none, true⟩

/-- Go `OSSStorage.ListDirectories` (storage/oss.go): the marker loop
drains every page of common prefixes; `cpPages` is the sequence of
`CommonPrefixes` slices the provider returns per page. -/
def ossListDirectories : List (List String) → List FileObject
  | [] => []
  | page :: rest => page.map ossDirRecord ++ ossListDirectories rest

/-- Directory record built by `OBStorage.ListDirectories` (OBS adapter
source): same field set as the OSS one — Metadata is a Go nil map. -/
def obsDirRecord (p : String) : FileObject :=
  ⟨p, 0, "application/directory", "", none, true⟩

/-- Go `OBStorage.ListDirectories` (OBS adapter source): one unpaginated
call; every common prefix becomes a directory record. -/
def obsListDirectories (cps : List String) : List FileObject :=
  cps.map obsDirRecord

/-- Directory record built by `MinIOStorage.ListDirectories` (MinIO
adapter source): full field set with `convertMetadata` metadata (always
allocated). -/
def minioDirRecord (o : ProviderObj) : FileObject :=
  ⟨o.key, o.size, o.contentType, o.lastModified, some o.userMetadata, true⟩

/-- Go `MinIOStorage.ListDirectories` (MinIO adapter source): drains the
non-recursive `ListObjects` channel, keeps the items whose key ends with
`/`, and aborts on the first item that carries an error. -/
def minioListDirectories :
    List (Except String ProviderObj) → Except String (List FileObject)
  | [] => .ok []
  | .error e :: _ => .error e
  | .ok o :: rest =>
    match minioListDirectories rest with
    | .error e => .error e
    | .ok l =>
      .ok (if strEndsWith o.key "/" then minioDirRecord o :: l else l)

/-! ## C6: Azure ListDirectories directory synthesis -/

/-- Directory record built by `AzureStorage.ListDirectories`
(storage/azure.go): only Name / Size / ContentType / IsDir are set, so
Metadata is a Go nil map. -/
def azureDirRecord (d : String) : FileObject :=
  ⟨d, 0, "application/directory", "", none, true⟩

/-- Ancestor directory paths synthesized for one blob name in
`AzureStorage.ListDirectories`: with `parts` the `/`-split of the name,
the paths `strings.Join(parts[:i], "/") ++ "/"` for `1 ≤ i < parts.length`
(the Go `len(parts) > 1` guard is subsumed by the empty range). -/
def azureAncestors (name : String) : List String :=
  let parts := goSplitSlash name
  (List.range' 1 (parts.length - 1)).map fun i =>
    goJoinSlash (parts.take i) ++ "/"

/-- Go inner loops of `AzureStorage.ListDirectories`: each candidate
directory path is appended once, with the `dirMap` seen-set suppressing
duplicates.  `seen` is the set of keys already in `dirMap`. -/
def dirInsertLoop :
    List String → List FileObject → List String → List String × List FileObject
  | seen, acc, [] => (seen, acc)
  | seen, acc, d :: ds =>
    if seen.contains d then dirInsertLoop seen acc ds
    else dirInsertLoop (d :: seen) (acc ++ [azureDirRecord d]) ds

/-- Go `AzureStorage.ListDirectories` (storage/azure.go): the nested
page / blob / ancestor loops, flattened — `blobNames` is the
concatenation of the blob names of all pages the pager yields. -/
def azureListDirectories (blobNames : List String) : List FileObject :=
  (dirInsertLoop [] [] (blobNames.flatMap azureAncestors)).2

/-- Decide whether a name ends with exactly one trailing slash: its last
character is `/` and the character before it (when present) is not. -/
def endsWithExactlyOneSlash (s : String) : Bool :=
  match s.data.reverse with
  | '/' :: [] => true
  | '/' :: c :: _ => if c = '/' then false else true
  | _ => false

/-- Well-formed object key for directory synthesis: every `/`-separated
segment except possibly the last is non-empty (no leading `/`, no
embedded `//`). -/
def wfKey (name : String) : Bool :=
  (goSplitSlash name).dropLast.all (fun s => !(s = ""))

/-! ## C3: EnsurePathExists -/

/-- Stack interpretation of Go `path.Clean`: processes the
`/`-separated elements left to right, dropping empty and `.` elements
and resolving `..` against the stack (`acc` holds the kept elements in
reverse). -/
def cleanStack (rooted : Bool) :
    List (List Char) → List (List Char) → List (List Char)
  | acc, [] => acc.reverse
  | acc, seg :: rest =>
    if seg = [] ∨ seg = ['.'] then cleanStack rooted acc rest
    else if seg = ['.', '.'] then
      match acc with
      | [] =>
        if rooted then cleanStack rooted [] rest
        else cleanStack rooted [seg] rest
      | top :: accRest =>
        if top = ['.', '.'] then cleanStack rooted (seg :: acc) rest
        else cleanStack rooted accRest rest
    else cleanStack rooted (seg :: acc) rest

/-- Go `path.Clean`. -/
def goPathClean (p : String) : String :=
  if p = "" then "."
  else
    let rooted : Bool :=
      match p.data with
      | '/' :: _ => true
      | _ => false
    let out := cleanStack rooted [] (splitSlashChars p.data)
    if rooted then ⟨'/' :: joinSlashChars out⟩
    else if out = [] then "."
    else ⟨joinSlashChars out⟩

/-- Go `path.Dir`: everything up to and including the final slash
(empty when there is no slash), passed through `path.Clean`. -/
def goPathDir (p : String) : String :=
  goPathClean ⟨(p.data.reverse.dropWhile (fun c => c ≠ '/')).reverse⟩

/-- Backend calls `EnsurePathExists` can make, with the key they
address: a metadata/stat probe (`StatObject` / `GetObjectDetailedMeta`),
a download probe (`DownloadStream`), or a marker creation via
`CreateDirectory`. -/
inductive EPEAction
  | statProbe (key : String)
  | getProbe (key : String)
  | create (key : String)
deriving Repr, DecidableEq

deriving instance DecidableEq for Except

/-- Result of one `EnsurePathExists` call: the backend calls performed,
in order, and the returned error if any. -/
structure EPEResult where
  actions : List EPEAction
  outcome : Except String Unit
deriving Repr, DecidableEq

/-- Outcome of a MinIO `StatObject` probe: success, or an error whose
`minio.ToErrorResponse(err).Code` equals `code` (the empty code models a
non-ErrorResponse error). -/
inductive MinioProbe
  | found
  | errResp (code : String)
deriving Repr, DecidableEq

/-- Outcome of an Azure `DownloadStream` probe: success, an
`*azcore.ResponseError` with the given HTTP status, or an error that is
not a ResponseError. -/
inductive AzProbe
  | found
  | respError (status : Nat)
  | otherError (msg : String)
deriving Repr, DecidableEq

/-- Normalized marker key probed by every `EnsurePathExists`
implementation: `path.Dir` of the object path, forced to end with `/`
(the Go code computes this in two statements, shadowing `dir`). -/
def epeDir (objectPath : String) : String :=
  if strEndsWith (goPathDir objectPath) "/" then goPathDir objectPath
  else goPathDir objectPath ++ "/"

/-- Go `MinIOStorage.EnsurePathExists` (MinIO adapter source): parent
via `path.Dir`, trivial success on `.` or `/`, normalization to a
trailing `/`, a `StatObject` probe on that key, `CreateDirectory`
exactly when the probe error code is `NoSuchKey` (the created marker key
equals the probed key: it already ends with `/`). -/
def minioEPE (probe : String → MinioProbe) (objectPath : String) : EPEResult :=
  if goPathDir objectPath = "." ∨ goPathDir objectPath = "/" then ⟨[], .ok ()⟩
  else
    match probe (epeDir objectPath) with
    | .found => ⟨[.statProbe (epeDir objectPath)], .ok ()⟩
    | .errResp code =>
      if code = "NoSuchKey" then
        ⟨[.statProbe (epeDir objectPath), .create (epeDir objectPath)], .ok ()⟩
      else
        ⟨[.statProbe (epeDir objectPath)], .error code⟩

/-- Go `AzureStorage.EnsurePathExists` (storage/azure.go): same shape as
the MinIO one except that the existence probe is a `DownloadStream`
call — a download, not a metadata/stat call — and NotFound is a
ResponseError with HTTP status 404. -/
def azureEPE (probe : String → AzProbe) (objectPath : String) : EPEResult :=
  if goPathDir objectPath = "." ∨ goPathDir objectPath = "/" then ⟨[], .ok ()⟩
  else
    match probe (epeDir objectPath) with
    | .found => ⟨[.getProbe (epeDir objectPath)], .ok ()⟩
    | .respError status =>
      if status = 404 then
        ⟨[.getProbe (epeDir objectPath), .create (epeDir objectPath)], .ok ()⟩
      else
        ⟨[.getProbe (epeDir objectPath)],
          .error ("http status " ++ Nat.repr status)⟩
    | .otherError msg => ⟨[.getProbe (epeDir objectPath)], .error msg⟩

/-- Keys of the `create` actions in a trace. -/
def createdKeys (acts : List EPEAction) : List String :=
  acts.filterMap fun a =>
    match a with
    | .create k => some k
    | _ => none

/-- MinIO probe semantics over a concrete key store: `StatObject`
succeeds exactly when the key is stored, and an absent key reports
`NoSuchKey`. -/
def minioProbeOf (store : List String) : String → MinioProbe :=
  fun k => if store.contains k then .found else .errResp "NoSuchKey"

/-- One `MinIOStorage.EnsurePathExists` call against a concrete key
store: the marker keys created by the call are added to the store
(`CreateDirectory` is a `PutObject` of the marker key). -/
def minioEPERun (store : List String) (objectPath : String) :
    List String × EPEResult :=
  let r := minioEPE (minioProbeOf store) objectPath
  (store ++ createdKeys r.actions, r)

/-- Azure probe semantics over a concrete key store: `DownloadStream`
succeeds exactly when the marker blob is stored, and an absent blob
reports a 404 ResponseError. -/
def azureProbeOf (store : List String) : String → AzProbe :=
  fun k => if store.contains k then .found else .respError 404

/-- One `AzureStorage.EnsurePathExists` call against a concrete key
store: the marker keys created by the call are added to the store. -/
def azureEPERun (store : List String) (objectPath : String) :
    List String × EPEResult :=
  let r := azureEPE (azureProbeOf store) objectPath
  (store ++ createdKeys r.actions, r)

/-! ## Theorems -/

/-- Helper: closed form of the `Server.deleteObjects` deletion loop. -/
theorem deleteLoop_eq (delOk : String → Bool) (objects : List FileObject) :
    deleteLoop delOk objects =
      ⟨(objects.filter (fun o => delOk o.name)).map (fun o => o.name),
       (objects.filter (fun o => !delOk o.name)).map
         (fun o => "Failed to delete " ++ o.name)⟩ := by
  induction objects with
  | nil => rfl
  | cons o rest ih =>
    cases h : delOk o.name <;>
      simp [deleteLoop, ih, List.filter_cons, h]

/-- C10: every route registered with the DELETE method dispatches the
single-object delete handler `Server.deleteFile`, and no registered
route dispatches the bulk prefix-delete handler `Server.deleteObjects`,
so the bulk-delete partial-success report is unreachable over the
public HTTP interface. -/
theorem C10_bulk_delete_unreachable :
    (∀ r ∈ registerRoutes, r.method = HttpMethod.delete →
        r.handler = Handler.deleteFileH) ∧
    ∀ r ∈ registerRoutes, r.handler ≠ Handler.deleteObjectsH := by
  decide

/-- C8 failing input: with an empty bucket parameter and configured
default `files`, the upload handler passes the empty bucket through to
the storage call while the other handlers substitute the default —
contradicting the upload handler's own `Use default bucket if not
specified` comment. -/
theorem C8_upload_missing_default_bucket :
    uploadFileBucket "" "files" = "" ∧
    handlerBucket "" "files" = "files" ∧
    uploadFileBucket "" "files" ≠ handlerBucket "" "files" := by
  decide

/-- C7: the prefix-scoped bulk delete lists the matching objects and
deletes each one individually, answering HTTP 200 with the names
deleted successfully and one error entry per failed deletion; a prefix
matching zero objects yields empty lists, not an error. -/
theorem C7_prefix_delete_partial_success
    (objects : List FileObject) (delOk : String → Bool) :
    deleteObjects (.ok objects) delOk =
      .ok ⟨(objects.filter (fun o => delOk o.name)).map (fun o => o.name),
           (objects.filter (fun o => !delOk o.name)).map
             (fun o => "Failed to delete " ++ o.name)⟩ ∧
    deleteObjects (.ok []) delOk = .ok ⟨[], []⟩ :=
  ⟨by simp [deleteObjects, deleteLoop_eq], rfl⟩

/-- Helper: the archive entries are exactly the kept records whose
download and entry creation succeed, named with the prefix stripped. -/
theorem archiveLoop_entries (pfx : String) (dlOk crOk cpOk : String → Bool)
    (objects : List FileObject) :
    (archiveLoop pfx dlOk crOk cpOk objects).entries =
      (objects.filter
          (fun o => keepInArchive o && dlOk o.name && crOk o.name)).map
        (fun o => o.name.drop pfx.length) := by
  induction objects with
  | nil => rfl
  | cons o rest ih =>
    cases hdir : o.isDir <;>
      cases he : strEndsWith o.name "/" <;>
      cases h1 : dlOk o.name <;>
      cases h2 : crOk o.name <;>
      cases h3 : cpOk o.name <;>
      simp [archiveLoop, ih, List.filter_cons, keepInArchive, hdir, he, h1, h2, h3]

/-- Helper: the fully copied archive entries are exactly the kept
records for which all three per-object steps succeed. -/
theorem archiveLoop_completed (pfx : String) (dlOk crOk cpOk : String → Bool)
    (objects : List FileObject) :
    (archiveLoop pfx dlOk crOk cpOk objects).completed =
      (objects.filter (fun o =>
          keepInArchive o && dlOk o.name && crOk o.name && cpOk o.name)).map
        (fun o => o.name.drop pfx.length) := by
  induction objects with
  | nil => rfl
  | cons o rest ih =>
    cases hdir : o.isDir <;>
      cases he : strEndsWith o.name "/" <;>
      cases h1 : dlOk o.name <;>
      cases h2 : crOk o.name <;>
      cases h3 : cpOk o.name <;>
      simp [archiveLoop, ih, List.filter_cons, keepInArchive, hdir, he, h1, h2, h3]

/-- Helper: a source stream is opened exactly for the kept records
whose download succeeds, and every open is immediately paired with a
close. -/
theorem archiveLoop_events (pfx : String) (dlOk crOk cpOk : String → Bool)
    (objects : List FileObject) :
    (archiveLoop pfx dlOk crOk cpOk objects).events =
      (objects.filter (fun o => keepInArchive o && dlOk o.name)).flatMap
        (fun o => [StreamEv.opened o.name, StreamEv.closed o.name]) := by
  induction objects with
  | nil => rfl
  | cons o rest ih =>
    cases hdir : o.isDir <;>
      cases he : strEndsWith o.name "/" <;>
      cases h1 : dlOk o.name <;>
      cases h2 : crOk o.name <;>
      cases h3 : cpOk o.name <;>
      simp [archiveLoop, ih, List.filter_cons, keepInArchive, hdir, he, h1, h2, h3]

/-- Helper: in a trace made of adjacent open/close pairs, every name is
closed as often as it is opened. -/
theorem pairTrace_balanced (l : List String) (n : String) :
    (l.flatMap
        (fun m => [StreamEv.opened m, StreamEv.closed m])).count
      (StreamEv.opened n) =
    (l.flatMap
        (fun m => [StreamEv.opened m, StreamEv.closed m])).count
      (StreamEv.closed n) := by
  induction l with
  | nil => rfl
  | cons m rest ih =>
    by_cases h : m = n <;>
      simp [List.count_cons, ih, h, StreamEv.opened.injEq, StreamEv.closed.injEq]

/-- C4: with every per-object step succeeding, the archive produced for
a prefix contains exactly one entry per non-directory record returned
by List under the normalized prefix — each named with the record's key
with the prefix stripped — and records that are directory-flagged or
slash-terminated contribute no entry. -/
theorem C4_archive_one_entry_per_object
    (object : String) (objects : List FileObject) :
    downloadDirArchive object (.ok objects)
        (fun _ => true) (fun _ => true) (fun _ => true) =
      .ok (archiveLoop (normalizeArchivePfx object)
            (fun _ => true) (fun _ => true) (fun _ => true) objects) ∧
    (archiveLoop (normalizeArchivePfx object)
        (fun _ => true) (fun _ => true) (fun _ => true) objects).entries =
      (objects.filter keepInArchive).map
        (fun o => o.name.drop (normalizeArchivePfx object).length) := by
  refine ⟨rfl, ?_⟩
  simp [archiveLoop_entries]

/-- C5: per-object failures during archive build are local — the loop
raises no aggregate error, the completed entries are exactly the kept
records for which download, entry creation and copy all succeed (every
other kept record is skipped alone), and each opened source stream is
closed whether or not its copy succeeded. -/
theorem C5_archive_partial_failure_policy
    (object : String) (objects : List FileObject)
    (dlOk crOk cpOk : String → Bool) :
    downloadDirArchive object (.ok objects) dlOk crOk cpOk =
      .ok (archiveLoop (normalizeArchivePfx object) dlOk crOk cpOk objects) ∧
    (archiveLoop (normalizeArchivePfx object) dlOk crOk cpOk objects).completed =
      (objects.filter (fun o =>
          keepInArchive o && dlOk o.name && crOk o.name && cpOk o.name)).map
        (fun o => o.name.drop (normalizeArchivePfx object).length) ∧
    ∀ n,
      (archiveLoop (normalizeArchivePfx object) dlOk crOk cpOk objects).events.count
          (StreamEv.opened n) =
        (archiveLoop (normalizeArchivePfx object) dlOk crOk cpOk objects).events.count
          (StreamEv.closed n) := by
  refine ⟨rfl, archiveLoop_completed _ _ _ _ _, fun n => ?_⟩
  rw [archiveLoop_events]
  have h := pairTrace_balanced
    ((objects.filter (fun o => keepInArchive o && dlOk o.name)).map
      (fun o => o.name)) n
  simpa [List.flatMap_map] using h

/-- Helper: the Azure pager loop converts the concatenation of all
pages. -/
theorem azureList_join (now : String) (pages : List (List AzBlobItem)) :
    azureList now pages = pages.flatten.map (azureConvert now) := by
  induction pages with
  | nil => rfl
  | cons p rest ih => simp [azureList, ih]

/-- Helper: the MinIO channel drain on an error-free channel converts
every item. -/
theorem minioList_map_ok (l : List ProviderObj) :
    minioList (l.map Except.ok) = .ok (l.map minioConvert) := by
  induction l with
  | nil => rfl
  | cons o rest ih => simp [minioList, ih]

set_option maxRecDepth 10000 in
/-- C1 counterexample: an OSS bucket holding 1001 objects, every key
matching the empty prefix; `OSSStorage.List` returns only 1000 records,
so the result is truncated to the provider's first 1000-key page rather
than the complete matching set. -/
theorem C1_counterexample :
    (listMatching ossBigStore "").length = 1001 ∧
    (ossList ossBigStore "").length = 1000 ∧
    (ossList ossBigStore "").length ≠ (listMatching ossBigStore "").length := by
  have h1 : (listMatching ossBigStore "").length = 1001 := by rfl
  have h2 : (ossList ossBigStore "").length = 1000 := by rfl
  refine ⟨h1, h2, ?_⟩
  rw [h1, h2]
  decide

/-- C1 amended: the MinIO and Azure adapters drain their providers'
listing primitives (channel / pager) completely and return every
matching object, but the OSS adapter issues a single request with
`MaxKeys(1000)` and returns only the first 1000 matching keys — a
complete result only when at most 1000 keys match — and the OBS adapter
likewise returns a single default-sized page. -/
theorem C1_list_pagination
    (store : List ProviderObj) (azStore : List AzBlobItem)
    (pfx now : String) (pages : List (List AzBlobItem))
    (items : List (Except String ProviderObj))
    (hpages : pages.flatten = azListMatching azStore pfx)
    (hitems : items = (listMatching store pfx).map Except.ok) :
    ossList store pfx = ((listMatching store pfx).take 1000).map ossConvert ∧
    obsList store pfx = ((listMatching store pfx).take 1000).map obsConvert ∧
    ((listMatching store pfx).length ≤ 1000 →
      ossList store pfx = (listMatching store pfx).map ossConvert) ∧
    azureList now pages = (azListMatching azStore pfx).map (azureConvert now) ∧
    minioList items = .ok ((listMatching store pfx).map minioConvert) := by
  refine ⟨rfl, rfl, ?_, ?_, ?_⟩
  · intro h
    unfold ossList ossListObjectsCall
    rw [List.take_of_length_le h]
  · rw [azureList_join, hpages]
  · rw [hitems, minioList_map_ok]

/-- C1 witness: the amended pagination law applied to a one-object
store, a one-page pager and a one-item channel. -/
theorem C1_list_pagination_witness :
    azureList "t" [[⟨"a", none, none, none⟩]] =
      (azListMatching [⟨"a", none, none, none⟩] "").map (azureConvert "t") ∧
    minioList [Except.ok ⟨"a", 0, "", "", [], ""⟩] =
      .ok ((listMatching [⟨"a", 0, "", "", [], ""⟩] "").map minioConvert) := by
  have h := C1_list_pagination [⟨"a", 0, "", "", [], ""⟩]
    [⟨"a", none, none, none⟩] "" "t" [[⟨"a", none, none, none⟩]]
    [Except.ok ⟨"a", 0, "", "", [], ""⟩] (by decide) (by decide)
  exact ⟨h.2.2.2.1, h.2.2.2.2⟩

/-- C2 counterexample: Download on an absent Azure blob surfaces the raw
SDK ResponseError (HTTP 404, service code BlobNotFound) to the caller —
a raw provider error, not a value of a NotFound / InvalidArgument /
Backend taxonomy. -/
theorem C2_counterexample :
    azureDownload [] "missing" =
      .error (.azureResp 404 "BlobNotFound") ∧
    (GoError.azureResp 404 "BlobNotFound").isTaxonomy = false := by
  decide

/-- C2 amended: the adapters propagate provider error values unmapped:
Download on an absent key returns the provider's native not-found error
(Azure: a 404 ResponseError) and GetObjectInfo on an absent key returns
the provider's native error (MinIO: a NoSuchKey error response); neither
belongs to the spec's error taxonomy, which exists nowhere in the
code. -/
theorem C2_raw_provider_errors
    (keys : List String) (store : List ProviderObj) (key : String)
    (hk : keys.contains key = false)
    (hs : store.find? (fun o => o.key = key) = none) :
    azureDownload keys key = .error (.azureResp 404 "BlobNotFound") ∧
    minioGetObjectInfo store key = .error (.minioResp "NoSuchKey") ∧
    ∀ e, (azureDownload keys key = .error e ∨
          minioGetObjectInfo store key = .error e) →
      e.isTaxonomy = false := by
  have h1 : azureDownload keys key =
      .error (.azureResp 404 "BlobNotFound") := by
    have hmem : key ∉ keys := by simpa using hk
    simp [azureDownload, hk, hmem]
  have h2 : minioGetObjectInfo store key =
      .error (.minioResp "NoSuchKey") := by
    simp [minioGetObjectInfo, hs]
  refine ⟨h1, h2, ?_⟩
  intro e he
  rcases he with he | he
  · rw [h1] at he
    simp only [Except.error.injEq] at he
    rw [← he]
    rfl
  · rw [h2] at he
    simp only [Except.error.injEq] at he
    rw [← he]
    rfl

/-- C2 witness: the amended error statement applied to empty stores. -/
theorem C2_raw_provider_errors_witness :
    azureDownload [] "k" = .error (.azureResp 404 "BlobNotFound") ∧
    minioGetObjectInfo [] "k" = .error (.minioResp "NoSuchKey") :=
  have h := C2_raw_provider_errors [] [] "k" (by decide) (by rfl)
  ⟨h.1, h.2.1⟩

/-- Helper: the OSS marker loop over common-prefix pages converts the
concatenation of all pages. -/
theorem ossListDirectories_flatten (cpPages : List (List String)) :
    ossListDirectories cpPages = cpPages.flatten.map ossDirRecord := by
  induction cpPages with
  | nil => rfl
  | cons p rest ih => simp [ossListDirectories, ih]

/-- Helper: the MinIO directory drain on an error-free channel keeps
exactly the slash-terminated keys. -/
theorem minioListDirectories_map_ok (objs : List ProviderObj) :
    minioListDirectories (objs.map Except.ok) =
      .ok ((objs.filter fun o => strEndsWith o.key "/").map minioDirRecord) := by
  induction objs with
  | nil => rfl
  | cons o rest ih =>
    cases h : strEndsWith o.key "/" <;>
      simp [minioListDirectories, ih, List.filter_cons, h]

/-- Helper: any property holding of the directory record of every
pending path, and of every accumulated record, holds of every record the
seen-set insertion loop produces. -/
theorem dirInsertLoop_all (P : FileObject → Prop) :
    ∀ (ds : List String) (seen : List String) (acc : List FileObject),
    (∀ o ∈ acc, P o) → (∀ d ∈ ds, P (azureDirRecord d)) →
    ∀ o ∈ (dirInsertLoop seen acc ds).2, P o := by
  intro ds
  induction ds with
  | nil =>
    intro seen acc hacc _ o ho
    exact hacc o (by simpa [dirInsertLoop] using ho)
  | cons d rest ih =>
    intro seen acc hacc hds o ho
    by_cases hc : d ∈ seen
    · refine ih seen acc hacc (fun x hx => hds x (List.mem_cons_of_mem _ hx)) o ?_
      simpa [dirInsertLoop, hc] using ho
    · refine ih (d :: seen) (acc ++ [azureDirRecord d]) ?_
        (fun x hx => hds x (List.mem_cons_of_mem _ hx)) o
        (by simpa [dirInsertLoop, hc] using ho)
      intro x hx
      rcases List.mem_append.mp hx with h | h
      · exact hacc x h
      · simp at h
        subst h
        exact hds d (List.mem_cons_self _ _)

/-- C9 counterexample: a directory record produced by
`OSSStorage.ListDirectories` carries a nil metadata map — the composite
literal omits the Metadata field. -/
theorem C9_counterexample :
    (ossListDirectories [["a/"]]).map (fun o => o.metadata) = [none] := by
  rfl

/-- C9 amended: records produced by every List adapter and every
GetObjectInfo adapter carry a non-null (possibly empty) metadata map,
and so do MinIO ListDirectories records; the directory records
synthesized by the OSS, OBS and Azure ListDirectories carry a null
metadata map. -/
theorem C9_metadata_nullability
    (store objs : List ProviderObj)
    (pfx now blobName oKey ct lm : String) (cl : Int)
    (pages : List (List AzBlobItem)) (props : AzBlobItem)
    (headers : List (String × String))
    (cpPages : List (List String)) (cps : List String)
    (blobNames : List String) :
    (∀ o ∈ ossList store pfx, o.metadata.isSome = true) ∧
    (∀ o ∈ obsList store pfx, o.metadata.isSome = true) ∧
    (∀ o ∈ azureList now pages, o.metadata.isSome = true) ∧
    (minioList (objs.map Except.ok) = .ok (objs.map minioConvert) ∧
      ∀ o ∈ objs.map minioConvert, o.metadata.isSome = true) ∧
    (azureGetObjectInfo now blobName props).metadata.isSome = true ∧
    (ossGetObjectInfo blobName headers).metadata.isSome = true ∧
    (obsGetObjectInfo blobName ct lm cl).metadata.isSome = true ∧
    (∀ fo, minioGetObjectInfo store oKey = .ok fo →
      fo.metadata.isSome = true) ∧
    (∀ o ∈ ossListDirectories cpPages, o.metadata = none) ∧
    (∀ o ∈ obsListDirectories cps, o.metadata = none) ∧
    (∀ o ∈ azureListDirectories blobNames, o.metadata = none) ∧
    (minioListDirectories (objs.map Except.ok) =
        .ok ((objs.filter fun o => strEndsWith o.key "/").map minioDirRecord) ∧
      ∀ o ∈ (objs.filter fun o => strEndsWith o.key "/").map minioDirRecord,
        o.metadata.isSome = true) := by
  refine ⟨?_, ?_, ?_, ⟨minioList_map_ok objs, ?_⟩, rfl, rfl, rfl, ?_, ?_, ?_,
    ?_, ⟨minioListDirectories_map_ok objs, ?_⟩⟩
  · intro o ho
    simp only [ossList, List.mem_map] at ho
    obtain ⟨a, -, rfl⟩ := ho
    rfl
  · intro o ho
    simp only [obsList, List.mem_map] at ho
    obtain ⟨a, -, rfl⟩ := ho
    rfl
  · intro o ho
    rw [azureList_join] at ho
    simp only [List.mem_map] at ho
    obtain ⟨a, -, rfl⟩ := ho
    rfl
  · intro o ho
    simp only [List.mem_map] at ho
    obtain ⟨a, -, rfl⟩ := ho
    rfl
  · intro fo hfo
    unfold minioGetObjectInfo at hfo
    cases hfind : store.find? (fun o => o.key = oKey) with
    | none => rw [hfind] at hfo; cases hfo
    | some o =>
      rw [hfind] at hfo
      simp only [Except.ok.injEq] at hfo
      rw [← hfo]
      rfl
  · intro o ho
    rw [ossListDirectories_flatten] at ho
    simp only [List.mem_map] at ho
    obtain ⟨a, -, rfl⟩ := ho
    rfl
  · intro o ho
    simp only [obsListDirectories, List.mem_map] at ho
    obtain ⟨a, -, rfl⟩ := ho
    rfl
  · exact dirInsertLoop_all (fun o => o.metadata = none) _ [] []
      (by intro o ho; cases ho) (fun d _ => rfl)
  · intro o ho
    simp only [List.mem_map] at ho
    obtain ⟨a, -, rfl⟩ := ho
    rfl

/-- C9 witness: the amended metadata statement applied to a one-object
MinIO store. -/
theorem C9_metadata_nullability_witness :
    (FileObject.mk "k" 1 "ct" "lm" (some [("a", "b")]) false).metadata.isSome
      = true := by
  have h := C9_metadata_nullability
    [⟨"k", 1, "ct", "lm", [("a", "b")], ""⟩] []
    "" "now" "b" "k" "" "" 0 [] ⟨"b", none, none, none⟩ [] [] [] []
  obtain ⟨-, -, -, -, -, -, -, h8, -⟩ := h
  exact h8 (FileObject.mk "k" 1 "ct" "lm" (some [("a", "b")]) false) (by rfl)

/-- Helper: appending a slash yields a slash-terminated string. -/
theorem strEndsWith_append_slash (s : String) :
    strEndsWith (s ++ "/") "/" = true := by
  have hd : (s ++ "/").data = s.data ++ ['/'] := rfl
  simp [strEndsWith, hd, List.isSuffixOf]

/-- Helper: the normalized EnsurePathExists marker key always ends with
a slash. -/
theorem epeDir_endsWith_slash (p : String) :
    strEndsWith (epeDir p) "/" = true := by
  unfold epeDir
  by_cases h : strEndsWith (goPathDir p) "/" = true
  · simp [h]
  · simp only [h]
    simpa [Bool.not_eq_true] using strEndsWith_append_slash (goPathDir p)

/-- Helper: a MinIO EnsurePathExists run whose marker key is already
stored performs no write and leaves the store unchanged. -/
theorem minioEPERun_found (store : List String) (p : String)
    (h : epeDir p ∈ store) :
    createdKeys (minioEPERun store p).2.actions = [] ∧
    (minioEPERun store p).1 = store := by
  by_cases htriv : goPathDir p = "." ∨ goPathDir p = "/"
  · simp [minioEPERun, minioEPE, htriv, createdKeys]
  · simp [minioEPERun, minioEPE, htriv, minioProbeOf, h, createdKeys]

/-- Helper: an Azure EnsurePathExists run whose marker key is already
stored performs no write and leaves the store unchanged. -/
theorem azureEPERun_found (store : List String) (p : String)
    (h : epeDir p ∈ store) :
    createdKeys (azureEPERun store p).2.actions = [] ∧
    (azureEPERun store p).1 = store := by
  by_cases htriv : goPathDir p = "." ∨ goPathDir p = "/"
  · simp [azureEPERun, azureEPE, htriv, createdKeys]
  · simp [azureEPERun, azureEPE, htriv, azureProbeOf, h, createdKeys]

/-- Helper: a second MinIO EnsurePathExists run performs no write and
leaves the store unchanged. -/
theorem minioEPERun_idem (store : List String) (p : String) :
    createdKeys (minioEPERun (minioEPERun store p).1 p).2.actions = [] ∧
    (minioEPERun (minioEPERun store p).1 p).1 = (minioEPERun store p).1 := by
  by_cases htriv : goPathDir p = "." ∨ goPathDir p = "/"
  · simp [minioEPERun, minioEPE, htriv, createdKeys]
  · by_cases hmem : epeDir p ∈ store
    · have h1 : (minioEPERun store p).1 = store :=
        (minioEPERun_found store p hmem).2
      rw [h1]
      exact ⟨(minioEPERun_found store p hmem).1, h1⟩
    · have hrun1 : (minioEPERun store p).1 = store ++ [epeDir p] := by
        simp [minioEPERun, minioEPE, htriv, minioProbeOf, hmem, createdKeys]
      have hmem2 : epeDir p ∈ store ++ [epeDir p] :=
        List.mem_append_right _ (List.mem_singleton_self _)
      rw [hrun1]
      exact ⟨(minioEPERun_found _ p hmem2).1, (minioEPERun_found _ p hmem2).2⟩

/-- Helper: a second Azure EnsurePathExists run performs no write and
leaves the store unchanged. -/
theorem azureEPERun_idem (store : List String) (p : String) :
    createdKeys (azureEPERun (azureEPERun store p).1 p).2.actions = [] ∧
    (azureEPERun (azureEPERun store p).1 p).1 = (azureEPERun store p).1 := by
  by_cases htriv : goPathDir p = "." ∨ goPathDir p = "/"
  · simp [azureEPERun, azureEPE, htriv, createdKeys]
  · by_cases hmem : epeDir p ∈ store
    · have h1 : (azureEPERun store p).1 = store :=
        (azureEPERun_found store p hmem).2
      rw [h1]
      exact ⟨(azureEPERun_found store p hmem).1, h1⟩
    · have hrun1 : (azureEPERun store p).1 = store ++ [epeDir p] := by
        simp [azureEPERun, azureEPE, htriv, azureProbeOf, hmem, createdKeys]
      have hmem2 : epeDir p ∈ store ++ [epeDir p] :=
        List.mem_append_right _ (List.mem_singleton_self _)
      rw [hrun1]
      exact ⟨(azureEPERun_found _ p hmem2).1, (azureEPERun_found _ p hmem2).2⟩

/-- C3 counterexample: the Azure EnsurePathExists probes the marker key
with a `DownloadStream` call — a download, not a metadata/stat call, so
the probe performed at `a/b.txt` is a get-probe and not a stat-probe of
any key. -/
theorem C3_counterexample :
    (azureEPE (fun _ => AzProbe.found) "a/b.txt").actions =
      [EPEAction.getProbe "a/"] ∧
    EPEAction.getProbe "a/" ≠ EPEAction.statProbe "a/" :=
  ⟨by decide, fun h => EPEAction.noConfusion h⟩

/-- C3 amended: EnsurePathExists computes the parent via `path.Dir`;
when it is `.` or `/` the call succeeds with no backend call; otherwise
the parent is normalized to end with `/` and existence is probed with a
backend call on that exact marker key — a metadata/stat call in the
MinIO adapter, a download call in the Azure adapter; a successful probe
means success without a write, a NotFound probe (MinIO `NoSuchKey`,
Azure 404) triggers exactly one `CreateDirectory` of that key, and any
other probe error propagates; two consecutive calls on the same path
produce one marker object and the second call performs no write. -/
theorem C3_ensure_path_exists
    (p : String) (mp : String → MinioProbe) (ap : String → AzProbe)
    (mstore astore : List String) :
    ((goPathDir p = "." ∨ goPathDir p = "/") →
      minioEPE mp p = ⟨[], .ok ()⟩ ∧ azureEPE ap p = ⟨[], .ok ()⟩) ∧
    (¬(goPathDir p = "." ∨ goPathDir p = "/") →
      strEndsWith (epeDir p) "/" = true ∧
      (mp (epeDir p) = .found →
        minioEPE mp p = ⟨[.statProbe (epeDir p)], .ok ()⟩) ∧
      (mp (epeDir p) = .errResp "NoSuchKey" →
        minioEPE mp p =
          ⟨[.statProbe (epeDir p), .create (epeDir p)], .ok ()⟩) ∧
      (∀ c, c ≠ "NoSuchKey" → mp (epeDir p) = .errResp c →
        minioEPE mp p = ⟨[.statProbe (epeDir p)], .error c⟩) ∧
      (ap (epeDir p) = .found →
        azureEPE ap p = ⟨[.getProbe (epeDir p)], .ok ()⟩) ∧
      (ap (epeDir p) = .respError 404 →
        azureEPE ap p =
          ⟨[.getProbe (epeDir p), .create (epeDir p)], .ok ()⟩) ∧
      (∀ st, st ≠ 404 → ap (epeDir p) = .respError st →
        azureEPE ap p =
          ⟨[.getProbe (epeDir p)],
            .error ("http status " ++ Nat.repr st)⟩) ∧
      (∀ m, ap (epeDir p) = .otherError m →
        azureEPE ap p = ⟨[.getProbe (epeDir p)], .error m⟩)) ∧
    createdKeys (minioEPERun (minioEPERun mstore p).1 p).2.actions = [] ∧
    (minioEPERun (minioEPERun mstore p).1 p).1 = (minioEPERun mstore p).1 ∧
    createdKeys (azureEPERun (azureEPERun astore p).1 p).2.actions = [] ∧
    (azureEPERun (azureEPERun astore p).1 p).1 = (azureEPERun astore p).1 ∧
    (¬(goPathDir p = "." ∨ goPathDir p = "/") →
      mstore.count (epeDir p) = 0 →
      (minioEPERun mstore p).1.count (epeDir p) = 1) := by
  refine ⟨?_, ?_, (minioEPERun_idem mstore p).1, (minioEPERun_idem mstore p).2,
    (azureEPERun_idem astore p).1, (azureEPERun_idem astore p).2, ?_⟩
  · intro htriv
    exact ⟨by simp [minioEPE, htriv], by simp [azureEPE, htriv]⟩
  · intro htriv
    refine ⟨epeDir_endsWith_slash p, ?_, ?_, ?_, ?_, ?_, ?_, ?_⟩
    · intro h; simp [minioEPE, htriv, h]
    · intro h; simp [minioEPE, htriv, h]
    · intro c hc h; simp [minioEPE, htriv, h, hc]
    · intro h; simp [azureEPE, htriv, h]
    · intro h; simp [azureEPE, htriv, h]
    · intro st hst h; simp [azureEPE, htriv, h, hst]
    · intro m h; simp [azureEPE, htriv, h]
  · intro htriv hcount
    have hmem : epeDir p ∉ mstore := List.count_eq_zero.mp hcount
    have hrun1 : (minioEPERun mstore p).1 = mstore ++ [epeDir p] := by
      simp [minioEPERun, minioEPE, htriv, minioProbeOf, hmem, createdKeys]
    rw [hrun1]
    simp [List.count_append, hcount]

/-- C3 witness: the amended EnsurePathExists statement applied to the
path `a/b.txt` with an empty store and a NoSuchKey-reporting probe. -/
theorem C3_ensure_path_exists_witness :
    minioEPE (fun _ => MinioProbe.errResp "NoSuchKey") "a/b.txt" =
      ⟨[EPEAction.statProbe "a/", EPEAction.create "a/"], .ok ()⟩ ∧
    (minioEPERun [] "a/b.txt").1.count (epeDir "a/b.txt") = 1 := by
  have h := C3_ensure_path_exists "a/b.txt"
    (fun _ => MinioProbe.errResp "NoSuchKey") (fun _ => AzProbe.found) [] []
  obtain ⟨-, hbr, -, -, -, -, hcnt⟩ := h
  obtain ⟨-, -, hns, -⟩ := hbr (by decide)
  refine ⟨?_, hcnt (by decide) (by rfl)⟩
  have hd : epeDir "a/b.txt" = "a/" := by decide
  simpa [hd] using hns rfl

/-- Helper: the fields produced by splitting on `/` contain no slash. -/
theorem splitSlashChars_no_slash (l : List Char) :
    ∀ s ∈ splitSlashChars l, '/' ∉ s := by
  induction l with
  | nil =>
    intro s hs
    simp only [splitSlashChars, List.mem_singleton] at hs
    subst hs
    simp
  | cons c cs ih =>
    intro s hs
    cases hsplit : splitSlashChars cs with
    | nil =>
      simp only [splitSlashChars, hsplit, List.mem_singleton] at hs
      subst hs
      simp
    | cons h t =>
      simp only [splitSlashChars, hsplit] at hs
      by_cases hc : c = '/'
      · rw [if_pos hc] at hs
        simp only [List.mem_cons] at hs
        rcases hs with hs | hs | hs
        · rw [hs]; simp
        · rw [hs]
          exact ih h (by rw [hsplit]; exact List.mem_cons_self _ _)
        · exact ih s (by rw [hsplit]; exact List.mem_cons_of_mem _ hs)
      · rw [if_neg hc] at hs
        simp only [List.mem_cons] at hs
        rcases hs with hs | hs
        · rw [hs]
          intro hmem
          rcases List.mem_cons.mp hmem with h1 | h1
          · exact hc h1.symm
          · exact ih h (by rw [hsplit]; exact List.mem_cons_self _ _) h1
        · exact ih s (by rw [hsplit]; exact List.mem_cons_of_mem _ hs)

/-- Helper: splitting never yields an empty field list. -/
theorem splitSlashChars_ne_nil (l : List Char) : splitSlashChars l ≠ [] := by
  cases l with
  | nil => simp [splitSlashChars]
  | cons c cs =>
    simp only [splitSlashChars]
    cases splitSlashChars cs with
    | nil => simp
    | cons h t => by_cases hc : c = '/' <;> simp [hc]

/-- Helper: the join of non-empty slash-free fields ends in a character
other than the slash. -/
theorem joinSlash_getLast (segs : List (List Char)) :
    segs ≠ [] → (∀ s ∈ segs, s ≠ [] ∧ '/' ∉ s) →
    ∃ c, (joinSlashChars segs).getLast? = some c ∧ c ≠ '/' := by
  induction segs with
  | nil => intro h _; cases h rfl
  | cons x rest ih =>
    intro _ hall
    cases rest with
    | nil =>
      have hx := hall x (List.mem_cons_self _ _)
      obtain ⟨c, hc⟩ := Option.isSome_iff_exists.mp
        (List.getLast?_isSome.mpr hx.1)
      refine ⟨c, by simpa [joinSlashChars] using hc, ?_⟩
      intro hcc
      subst hcc
      exact hx.2 (List.mem_of_mem_getLast? hc)
    | cons y rest2 =>
      obtain ⟨c, hlast, hcne⟩ := ih (by simp)
        (fun s hs => hall s (List.mem_cons_of_mem _ hs))
      have hjoin_ne : joinSlashChars (y :: rest2) ≠ [] := by
        intro h0
        rw [h0] at hlast
        cases hlast
      refine ⟨c, ?_, hcne⟩
      show (x ++ '/' :: joinSlashChars (y :: rest2)).getLast? = some c
      rw [List.getLast?_append_of_ne_nil _ (by simp)]
      rw [show ('/' :: joinSlashChars (y :: rest2)) =
        ['/'] ++ joinSlashChars (y :: rest2) from rfl]
      rw [List.getLast?_append_of_ne_nil _ hjoin_ne]
      exact hlast

/-- Helper: appending a slash to a join of non-empty slash-free fields
produces a name ending in exactly one slash. -/
theorem endsOne_of_join (segs : List (List Char))
    (hne : segs ≠ []) (hall : ∀ s ∈ segs, s ≠ [] ∧ '/' ∉ s) :
    endsWithExactlyOneSlash ⟨joinSlashChars segs ++ ['/']⟩ = true := by
  obtain ⟨c, hc, hcne⟩ := joinSlash_getLast segs hne hall
  have hhead : (joinSlashChars segs).reverse.head? = some c := by
    rw [List.head?_reverse]
    exact hc
  obtain ⟨rest, hrest⟩ : ∃ rest,
      (joinSlashChars segs).reverse = c :: rest := by
    cases hr : (joinSlashChars segs).reverse with
    | nil => rw [hr] at hhead; cases hhead
    | cons a t =>
      rw [hr] at hhead
      simp only [List.head?_cons, Option.some.injEq] at hhead
      exact ⟨t, by rw [hhead]⟩
  have hrev : (String.mk (joinSlashChars segs ++ ['/'])).data.reverse =
      '/' :: c :: rest := by
    show (joinSlashChars segs ++ ['/']).reverse = '/' :: c :: rest
    rw [List.reverse_append]
    simpa using hrest
  unfold endsWithExactlyOneSlash
  rw [hrev]
  simp [hcne]

/-- Helper: every synthesized ancestor path is the join of an initial
fragment of the split, with a slash appended. -/
theorem azureAncestors_shape (name d : String)
    (hd : d ∈ azureAncestors name) :
    ∃ i, 1 ≤ i ∧ i ≤ (splitSlashChars name.data).length - 1 ∧
      d = ⟨joinSlashChars ((splitSlashChars name.data).take i) ++ ['/']⟩ := by
  unfold azureAncestors at hd
  simp only [List.mem_map] at hd
  obtain ⟨i, hi, hdeq⟩ := hd
  rw [List.mem_range'] at hi
  obtain ⟨k, hk, rfl⟩ := hi
  have hlen : (goSplitSlash name).length = (splitSlashChars name.data).length := by
    unfold goSplitSlash
    exact List.length_map _ _
  refine ⟨1 + 1 * k, by omega, by omega, ?_⟩
  rw [← hdeq]
  unfold goJoinSlash goSplitSlash
  rw [show ((splitSlashChars name.data).map (fun l => (⟨l⟩ : String))).take
        (1 + 1 * k) =
      ((splitSlashChars name.data).take (1 + 1 * k)).map
        (fun l => (⟨l⟩ : String)) from
    (List.map_take _ _ _).symm]
  rw [List.map_map]
  rw [show (String.data ∘ fun l : List Char => (⟨l⟩ : String)) = id from rfl]
  rw [List.map_id]
  rfl

/-- Helper: every synthesized ancestor path ends with a slash. -/
theorem azureAncestors_endsWith (name : String) :
    ∀ d ∈ azureAncestors name, strEndsWith d "/" = true := by
  intro d hd
  unfold azureAncestors at hd
  simp only [List.mem_map] at hd
  obtain ⟨i, -, rfl⟩ := hd
  exact strEndsWith_append_slash _

/-- Helper: for a well-formed key (no empty segment before the last),
every synthesized ancestor path ends with exactly one slash. -/
theorem azureAncestors_endsOne (name : String) (hwf : wfKey name = true) :
    ∀ d ∈ azureAncestors name, endsWithExactlyOneSlash d = true := by
  intro d hd
  obtain ⟨i, hi1, hi2, rfl⟩ := azureAncestors_shape name d hd
  apply endsOne_of_join
  · rw [Ne, List.take_eq_nil_iff]
    push_neg
    exact ⟨by omega, splitSlashChars_ne_nil _⟩
  · intro s hs
    refine ⟨?_, splitSlashChars_no_slash name.data s (List.mem_of_mem_take hs)⟩
    have hmem : s ∈ (splitSlashChars name.data).dropLast := by
      rw [List.dropLast_eq_take]
      exact (List.take_prefix_take_left _ hi2).subset hs
    have hmk : (⟨s⟩ : String) ∈ (goSplitSlash name).dropLast := by
      unfold goSplitSlash
      rw [show ((splitSlashChars name.data).map
            (fun l => (⟨l⟩ : String))).dropLast =
          (splitSlashChars name.data).dropLast.map
            (fun l => (⟨l⟩ : String)) from (List.map_dropLast _ _).symm]
      exact List.mem_map_of_mem _ hmem
    have hall := List.all_eq_true.mp hwf _ hmk
    intro hnil
    rw [hnil] at hall
    simp at hall

/-- Helper: the seen-set insertion loop never emits a duplicate name,
provided every accumulated name is already in the seen set. -/
theorem dirInsertLoop_nodup :
    ∀ (ds seen : List String) (acc : List FileObject),
    (∀ o ∈ acc, o.name ∈ seen) →
    ((acc.map fun o => o.name).Nodup) →
    ((dirInsertLoop seen acc ds).2.map fun o => o.name).Nodup := by
  intro ds
  induction ds with
  | nil =>
    intro seen acc _ h2
    simpa [dirInsertLoop] using h2
  | cons d rest ih =>
    intro seen acc h1 h2
    by_cases hc : d ∈ seen
    · rw [show dirInsertLoop seen acc (d :: rest) = dirInsertLoop seen acc rest
        from by simp [dirInsertLoop, hc]]
      exact ih seen acc h1 h2
    · rw [show dirInsertLoop seen acc (d :: rest) =
          dirInsertLoop (d :: seen) (acc ++ [azureDirRecord d]) rest
        from by simp [dirInsertLoop, hc]]
      apply ih
      · intro o ho
        rcases List.mem_append.mp ho with h | h
        · exact List.mem_cons_of_mem _ (h1 o h)
        · simp only [List.mem_singleton] at h
          rw [h]
          exact List.mem_cons_self _ _
      · rw [List.map_append, List.nodup_append]
        refine ⟨h2, List.nodup_singleton _, ?_⟩
        intro x hx hx2
        simp only [List.map_cons, List.map_nil, List.mem_singleton] at hx2
        obtain ⟨o, ho, hod⟩ := List.mem_map.mp hx
        rw [hx2] at hod
        simp only [azureDirRecord] at hod
        exact hc (hod ▸ h1 o ho)

/-- Helper: a name appears among the loop output exactly when it is an
accumulated name or a pending name outside the seen set. -/
theorem dirInsertLoop_mem (n : String) :
    ∀ (ds seen : List String) (acc : List FileObject),
    (n ∈ (dirInsertLoop seen acc ds).2.map fun o => o.name) ↔
      (n ∈ acc.map fun o => o.name) ∨ (n ∈ ds ∧ n ∉ seen) := by
  intro ds
  induction ds with
  | nil =>
    intro seen acc
    simp [dirInsertLoop]
  | cons d rest ih =>
    intro seen acc
    by_cases hc : d ∈ seen
    · rw [show dirInsertLoop seen acc (d :: rest) = dirInsertLoop seen acc rest
        from by simp [dirInsertLoop, hc]]
      rw [ih seen acc]
      constructor
      · rintro (h | ⟨h1, h2⟩)
        · exact Or.inl h
        · exact Or.inr ⟨List.mem_cons_of_mem _ h1, h2⟩
      · rintro (h | ⟨h1, h2⟩)
        · exact Or.inl h
        · rcases List.mem_cons.mp h1 with rfl | h1
          · cases h2 hc
          · exact Or.inr ⟨h1, h2⟩
    · rw [show dirInsertLoop seen acc (d :: rest) =
          dirInsertLoop (d :: seen) (acc ++ [azureDirRecord d]) rest
        from by simp [dirInsertLoop, hc]]
      rw [ih]
      simp only [List.map_append, List.mem_append]
      constructor
      · rintro ((h | h) | ⟨h1, h2⟩)
        · exact Or.inl h
        · simp only [List.map_cons, List.map_nil, List.mem_singleton,
            azureDirRecord] at h
          rw [h]
          exact Or.inr ⟨List.mem_cons_self _ _, hc⟩
        · exact Or.inr ⟨List.mem_cons_of_mem _ h1,
            fun hn => h2 (List.mem_cons_of_mem _ hn)⟩
      · rintro (h | ⟨h1, h2⟩)
        · exact Or.inl (Or.inl h)
        · rcases List.mem_cons.mp h1 with rfl | h1
          · exact Or.inl (Or.inr (by simp [azureDirRecord]))
          · by_cases hnd : n = d
            · exact Or.inl (Or.inr (by simp [azureDirRecord, hnd]))
            · refine Or.inr ⟨h1, ?_⟩
              intro hn
              rcases List.mem_cons.mp hn with h | h
              · exact hnd h
              · exact h2 h

/-- C6 counterexample: for a blob named `a//b.txt` (legal in a flat key
space), `AzureStorage.ListDirectories` returns the directory names `a/`
and `a//`; the latter ends with two slashes, not exactly one. -/
theorem C6_counterexample :
    (azureListDirectories ["a//b.txt"]).map (fun o => o.name) =
      ["a/", "a//"] ∧
    endsWithExactlyOneSlash "a//" = false :=
  ⟨by decide, by decide⟩

/-- C6 amended: every record returned by ListDirectories is
directory-flagged; no two returned records share a name — each ancestor
path appears exactly once however many descendants reference it — and
every returned name ends with a trailing `/`; when every listed key is
free of empty path segments (no leading `/`, no `//`), each name ends
with exactly one trailing `/`. -/
theorem C6_list_directories
    (blobNames : List String) (objs : List ProviderObj) :
    (∀ o ∈ azureListDirectories blobNames, o.isDir = true) ∧
    ((azureListDirectories blobNames).map (fun o => o.name)).Nodup ∧
    (∀ n, n ∈ (azureListDirectories blobNames).map (fun o => o.name) ↔
      n ∈ blobNames.flatMap azureAncestors) ∧
    (∀ o ∈ azureListDirectories blobNames,
      strEndsWith o.name "/" = true) ∧
    ((∀ b ∈ blobNames, wfKey b = true) →
      ∀ o ∈ azureListDirectories blobNames,
        endsWithExactlyOneSlash o.name = true) ∧
    minioListDirectories (objs.map Except.ok) =
      .ok ((objs.filter fun o => strEndsWith o.key "/").map minioDirRecord) ∧
    (∀ o ∈ (objs.filter fun o => strEndsWith o.key "/").map minioDirRecord,
      o.isDir = true ∧ strEndsWith o.name "/" = true) ∧
    ((objs.map fun o => o.key).Nodup →
      (((objs.filter fun o => strEndsWith o.key "/").map minioDirRecord).map
        fun o => o.name).Nodup) := by
  refine ⟨?_, ?_, ?_, ?_, ?_, minioListDirectories_map_ok objs, ?_, ?_⟩
  · exact dirInsertLoop_all (fun o => o.isDir = true) _ [] []
      (by intro o ho; cases ho) (fun d _ => rfl)
  · exact dirInsertLoop_nodup _ [] [] (by intro o ho; cases ho) List.nodup_nil
  · intro n
    unfold azureListDirectories
    rw [dirInsertLoop_mem n]
    simp
  · refine dirInsertLoop_all (fun o => strEndsWith o.name "/" = true) _ [] []
      (by intro o ho; cases ho) ?_
    intro d hd
    obtain ⟨b, hb, hdb⟩ := List.mem_flatMap.mp hd
    exact azureAncestors_endsWith b d hdb
  · intro hwf
    refine dirInsertLoop_all
      (fun o => endsWithExactlyOneSlash o.name = true) _ [] []
      (by intro o ho; cases ho) ?_
    intro d hd
    obtain ⟨b, hb, hdb⟩ := List.mem_flatMap.mp hd
    exact azureAncestors_endsOne b (hwf b hb) d hdb
  · intro o ho
    obtain ⟨a, ha, rfl⟩ := List.mem_map.mp ho
    obtain ⟨-, hend⟩ := List.mem_filter.mp ha
    exact ⟨rfl, hend⟩
  · intro hnd
    have hmm : (((objs.filter fun o => strEndsWith o.key "/").map
          minioDirRecord).map fun o => o.name) =
        (objs.filter fun o => strEndsWith o.key "/").map fun o => o.key := by
      rw [List.map_map]
      rfl
    rw [hmm]
    exact List.Nodup.sublist ((List.filter_sublist _).map _) hnd

/-- C6 witness: the amended ListDirectories statement applied to a
well-formed one-blob listing and a one-object MinIO channel. -/
theorem C6_list_directories_witness :
    ((azureListDirectories ["a/x.txt"]).map fun o => o.name).Nodup ∧
    endsWithExactlyOneSlash (azureDirRecord "a/").name = true ∧
    (((([⟨"d/", 0, "", "", [], ""⟩] : List ProviderObj).filter
        fun o => strEndsWith o.key "/").map minioDirRecord).map
      fun o => o.name).Nodup := by
  have h := C6_list_directories ["a/x.txt"] [⟨"d/", 0, "", "", [], ""⟩]
  exact ⟨h.2.1,
    h.2.2.2.2.1 (by decide) (azureDirRecord "a/") (by decide),
    h.2.2.2.2.2.2.2 (by decide)⟩

end FileService
